import Mathlib

/-!
Shallow embedding of `src/bot.py`: a chess bot consisting of a heuristic
position evaluator (`evaluate_board` and its helper terms) and a
depth-limited minimax search with alpha-beta pruning (`minimax`,
`get_best_move`).

The external rules engine (python-chess) is out of scope per the design:
it is modelled as an abstract interface.  A `Board` records exactly the
queries the bot reads from `self.board`; a `GameTree` (below) records the
legal-move structure the engine exposes during search.  Colors are `Bool`
with `true = chess.WHITE`, squares are natural numbers in python-chess
numbering (A1 = 0, ..., H8 = 63), and scores are rationals extended with the two
float infinities used as search sentinels.
-/

/-- Python float scores: finite values are rationals (the evaluator only
produces multiples of 1/2), `⊥` is `float('-inf')` and `⊤` is
`float('inf')`. -/
abbrev ScoreE := WithBot (WithTop ℚ)

/-- A finite score. -/
def finScore (q : ℚ) : ScoreE := ((q : WithTop ℚ) : ScoreE)

/-- Chess piece kinds, as discriminated by `piece.symbol().lower()`. -/
inductive PieceType
  | pawn | rook | knight | bishop | queen | king
deriving DecidableEq, Repr

/-- A piece as returned by `board.piece_at`: a kind and a color
(`true = chess.WHITE`). -/
structure Piece where
  ptype : PieceType
  color : Bool
deriving DecidableEq, Repr

/-- The abstract state of `self.board`, restricted to the queries the bot
performs on it.  Field names follow the python-chess methods used in
`src/bot.py`; `attacks_len sq` is `len(board.attacks(sq))` and
`attackers_len col sq` is `len(board.attackers(col, sq))`; `pieces t col`
lists the squares of `board.pieces(t, col)` in ascending order (so that the
head models `SquareSet.pop()`, which removes the lowest square). -/
structure Board where
  piece_at : Nat → Option Piece
  has_kingside_castling_rights : Bool → Bool
  has_queenside_castling_rights : Bool → Bool
  king : Bool → Option Nat
  is_checkmate : Bool
  is_game_over : Bool
  attacks_len : Nat → Nat
  attackers_len : Bool → Nat → Nat
  pieces : PieceType → Bool → List Nat

/-- `chess.E1` (= 4). -/
def e1 : Nat := 4
/-- `chess.E8` (= 60). -/
def e8 : Nat := 60

/-- The list `[chess.D4, chess.E4, chess.D5, chess.E5]` (= [27, 28, 35, 36]). -/
def centralSquares : List Nat := [27, 28, 35, 36]

/-- `Bot.get_piece_value(piece, square)` with `c = self.color`:
pawn 1, rook 5, knight 3, bishop 3, queen 9, king 100, then `±0.5`
center-control adjustment depending on whether the piece belongs to the
bot's side. -/
def get_piece_value (c : Bool) (piece : Piece) (square : Nat) : ℚ :=
  let value : ℚ :=
    match piece.ptype with
    | .pawn => 1
    | .rook => 5
    | .knight => 3
    | .bishop => 3
    | .queen => 9
    | .king => 100
  if piece.color = c then
    if square ∈ centralSquares then value + 1/2 else value
  else
    if square ∈ centralSquares then value - 1/2 else value

/-- `Bot.is_king_exposed(king_square)`: ignores its argument and tests that
the opponent has lost both castling rights. -/
def is_king_exposed (c : Bool) (b : Board) (_king_square : Option Nat) : Bool :=
  !b.has_kingside_castling_rights (!c) && !b.has_queenside_castling_rights (!c)

/-- `Bot.get_attack_against_king_bonus()`: +10 if the opponent king is
"exposed", +5 if it stands on a central square.  In Python a `None` king
square is simply not in the central-square list, which the `Option`
membership reproduces. -/
def get_attack_against_king_bonus (c : Bool) (b : Board) : ℚ :=
  let opponent_king_square := b.king (!c)
  (if is_king_exposed c b opponent_king_square then 10 else 0) +
  (if opponent_king_square ∈ centralSquares.map some then 5 else 0)

/-- `Bot.get_checkmate_threat_bonus()`: +50 on checkmate, +20 when the
opponent king's attack-set size is at most 2.  The `none` branch cannot be
reached from `evaluate_board`, which guards on both kings being present
(in Python, `board.attacks(None)` would raise). -/
def get_checkmate_threat_bonus (c : Bool) (b : Board) : ℚ :=
  let base : ℚ := if b.is_checkmate then 50 else 0
  match b.king (!c) with
  | some opponent_king_square =>
      base + (if b.attacks_len opponent_king_square ≤ 2 then 20 else 0)
  | none => base

/-- `Bot.get_protect_key_pieces_bonus()`: bonuses/penalties for unattacked
queens, rooks, and own minor pieces.  The sequential `bonus += ...`
accumulation is written as a sum of the per-piece contributions. -/
def get_protect_key_pieces_bonus (c : Bool) (b : Board) : ℚ :=
  let my_queen : ℚ :=
    match b.pieces .queen c with
    | [] => 0
    | my_queen_square :: _ =>
        if b.attackers_len (!c) my_queen_square = 0 then 4 else 0
  let opponent_queen : ℚ :=
    match b.pieces .queen (!c) with
    | [] => 0
    | opponent_queen_square :: _ =>
        if b.attackers_len c opponent_queen_square = 0 then -2 else 0
  let my_rooks :=
    ((b.pieces .rook c).map
      (fun square => if b.attackers_len (!c) square = 0 then (2 : ℚ) else 0)).sum
  let opponent_rooks :=
    ((b.pieces .rook (!c)).map
      (fun square => if b.attackers_len c square = 0 then (-1 : ℚ) else 0)).sum
  let my_knights :=
    ((b.pieces .knight c).map
      (fun square => if b.attackers_len (!c) square = 0 then (1 : ℚ) else 0)).sum
  let my_bishops :=
    ((b.pieces .bishop c).map
      (fun square => if b.attackers_len (!c) square = 0 then (1 : ℚ) else 0)).sum
  my_queen + opponent_queen + my_rooks + opponent_rooks + my_knights + my_bishops

/-- `Bot.get_king_safety_bonus(king_square)`: +2 per castling right still
held by the bot's side, but only when `king_square == chess.E1`
(hard-coded, for either color). -/
def get_king_safety_bonus (c : Bool) (b : Board) (king_square : Nat) : ℚ :=
  (if b.has_kingside_castling_rights c ∧ king_square = e1 then 2 else 0) +
  (if b.has_queenside_castling_rights c ∧ king_square = e1 then 2 else 0)

/-- `Bot.get_king_safety_penalty(king_square)`: `penalty -= 2` per castling
right the opponent has lost, when `king_square == chess.E8` (hard-coded);
the result is 0, -2 or -4. -/
def get_king_safety_penalty (c : Bool) (b : Board) (king_square : Nat) : ℚ :=
  (if ¬ b.has_kingside_castling_rights (!c) ∧ king_square = e8 then -2 else 0) +
  (if ¬ b.has_queenside_castling_rights (!c) ∧ king_square = e8 then -2 else 0)

/-- `chess.SQUARES`: the squares `0, ..., 63` in order. -/
def squares : List Nat := List.range 64

/-- The material loop of `Bot.evaluate_board`: over every square, add the
piece value of the bot's own pieces and subtract the piece value of the
opponent's pieces. -/
def material_score (c : Bool) (b : Board) : ℚ :=
  squares.foldl
    (fun score square =>
      match b.piece_at square with
      | some piece =>
          if piece.color = c then score + get_piece_value c piece square
          else score - get_piece_value c piece square
      | none => score)
    0

/-- `Bot.evaluate_board()`: material loop, then - when both kings are on
the board - the king-safety, checkmate-threat, attack-against-king,
king-safety-penalty (subtracted) and piece-protection terms. -/
def evaluate_board (c : Bool) (b : Board) : ℚ :=
  let score := material_score c b
  match b.king c, b.king (!c) with
  | some my_king_square, some opponent_king_square =>
      score + get_king_safety_bonus c b my_king_square
            + get_checkmate_threat_bonus c b
            + get_attack_against_king_bonus c b
            - get_king_safety_penalty c b opponent_king_square
            + get_protect_key_pieces_bonus c b
  | _, _ => score

/-- `evaluate_board` with the single line `score -= self.get_king_safety_penalty(...)`
removed; used to state how the penalty term enters the total. -/
def evaluate_board_sans_penalty (c : Bool) (b : Board) : ℚ :=
  let score := material_score c b
  match b.king c, b.king (!c) with
  | some my_king_square, some _ =>
      score + get_king_safety_bonus c b my_king_square
            + get_checkmate_threat_bonus c b
            + get_attack_against_king_bonus c b
            + get_protect_key_pieces_bonus c b
  | _, _ => score

/-- The game tree the external rules engine exposes to the search: at each
node, the `Board` state the bot queries there, and the legal moves
(`list(self.board.legal_moves)`, in enumeration order) paired with the
position reached by pushing that move.  `Move` values are opaque to the
bot, so they are modelled by `Nat` identifiers. -/
inductive GameTree where
  | node (board : Board) (moves : List (Nat × GameTree))

/-- The board state at the root of a game tree. -/
def GameTree.board : GameTree → Board
  | .node b _ => b

/-- The legal-move list at the root of a game tree. -/
def GameTree.moves : GameTree → List (Nat × GameTree)
  | .node _ ms => ms

mutual

/-- `Bot.minimax(depth, alpha, beta, maximizing_player)` with
`c = self.color`.  The shared mutable board is modelled by the current
`GameTree` node together with an explicit move stack `st` (the board's
move history): `self.board.push(move)` conses the move onto the stack and
descends into the child tree, `self.board.pop()` drops the most recent
entry of whatever stack the recursive call returned.  The Python return
value is the first component `(best_eval, best_move)`; the second
component is the board stack as the call leaves it. -/
def minimax (c : Bool) : Nat → GameTree → ScoreE → ScoreE → Bool → List Nat →
    (ScoreE × Option Nat) × List Nat
  | 0, t, _, _, _, st => ((finScore (evaluate_board c t.board), none), st)
  | depth + 1, t, alpha, beta, maximizing_player, st =>
    if t.board.is_game_over then ((finScore (evaluate_board c t.board), none), st)
    else if maximizing_player then
      maxGo c depth beta t.moves ⊥ alpha none st
    else
      minGo c depth alpha t.moves ⊤ beta none st
termination_by depth _ _ _ _ _ => (depth, 0)

/-- The `for move in legal_moves` loop of the maximizing branch:
`best_eval` starts at `float('-inf')`, a strictly better evaluation
updates `(best_eval, best_move)`, `alpha = max(alpha, best_eval)`, and
`beta <= alpha` breaks out of the loop. -/
def maxGo (c : Bool) (depth : Nat) (beta : ScoreE) :
    List (Nat × GameTree) → ScoreE → ScoreE → Option Nat → List Nat →
    (ScoreE × Option Nat) × List Nat
  | [], best_eval, _, best_move, st => ((best_eval, best_move), st)
  | (m, child) :: rest, best_eval, alpha, best_move, st =>
      let r := minimax c depth child alpha beta false (m :: st)
      let evaluation := r.1.1
      let st1 := r.2.tail
      let best_eval' := if best_eval < evaluation then evaluation else best_eval
      let best_move' := if best_eval < evaluation then some m else best_move
      let alpha' := max alpha best_eval'
      if beta ≤ alpha' then ((best_eval', best_move'), st1)
      else maxGo c depth beta rest best_eval' alpha' best_move' st1
termination_by l _ _ _ _ => (depth, l.length + 1)

/-- The `for move in legal_moves` loop of the minimizing branch:
`best_eval` starts at `float('inf')`, `beta = min(beta, best_eval)`, and
`beta <= alpha` breaks. -/
def minGo (c : Bool) (depth : Nat) (alpha : ScoreE) :
    List (Nat × GameTree) → ScoreE → ScoreE → Option Nat → List Nat →
    (ScoreE × Option Nat) × List Nat
  | [], best_eval, _, best_move, st => ((best_eval, best_move), st)
  | (m, child) :: rest, best_eval, beta, best_move, st =>
      let r := minimax c depth child alpha beta true (m :: st)
      let evaluation := r.1.1
      let st1 := r.2.tail
      let best_eval' := if evaluation < best_eval then evaluation else best_eval
      let best_move' := if evaluation < best_eval then some m else best_move
      let beta' := min beta best_eval'
      if beta' ≤ alpha then ((best_eval', best_move'), st1)
      else minGo c depth alpha rest best_eval' beta' best_move' st1
termination_by l _ _ _ _ => (depth, l.length + 1)

end

mutual

/-- Modelled from the spec: the "unpruned full minimax traversal of the
identical tree" against which the pruned search is compared - the same
recursion as `minimax` with the alpha/beta parameters and the cutoff
removed. -/
def full_minimax (c : Bool) : Nat → GameTree → Bool → ScoreE × Option Nat
  | 0, t, _ => (finScore (evaluate_board c t.board), none)
  | depth + 1, t, maximizing_player =>
    if t.board.is_game_over then (finScore (evaluate_board c t.board), none)
    else if maximizing_player then
      fullMaxGo c depth t.moves ⊥ none
    else
      fullMinGo c depth t.moves ⊤ none
termination_by depth _ _ => (depth, 0)

/-- Unpruned maximizing loop. -/
def fullMaxGo (c : Bool) (depth : Nat) :
    List (Nat × GameTree) → ScoreE → Option Nat → ScoreE × Option Nat
  | [], best_eval, best_move => (best_eval, best_move)
  | (m, child) :: rest, best_eval, best_move =>
      let evaluation := (full_minimax c depth child false).1
      let best_eval' := if best_eval < evaluation then evaluation else best_eval
      let best_move' := if best_eval < evaluation then some m else best_move
      fullMaxGo c depth rest best_eval' best_move'
termination_by l _ _ => (depth, l.length + 1)

/-- Unpruned minimizing loop. -/
def fullMinGo (c : Bool) (depth : Nat) :
    List (Nat × GameTree) → ScoreE → Option Nat → ScoreE × Option Nat
  | [], best_eval, best_move => (best_eval, best_move)
  | (m, child) :: rest, best_eval, best_move =>
      let evaluation := (full_minimax c depth child true).1
      let best_eval' := if evaluation < best_eval then evaluation else best_eval
      let best_move' := if evaluation < best_eval then some m else best_move
      fullMinGo c depth rest best_eval' best_move'
termination_by l _ _ => (depth, l.length + 1)

end

/-- `Bot.get_best_move()`: returns the root `minimax` result - in the
Python source this is the whole `(best_eval, best_move)` tuple, since
`best_move = self.minimax(self.depth)` binds the pair and is returned
unchanged.  The search runs with the configured depth (`self.depth`),
`alpha = -inf`, `beta = +inf`, `maximizing_player = True`.  The
instrumented board stack (second component of `minimax`) is the shared
board's state, not part of the return value. -/
def get_best_move (c : Bool) (depth : Nat) (t : GameTree) : ScoreE × Option Nat :=
  (minimax c depth t ⊥ ⊤ true []).1

mutual

/-- A hereditary rules-engine invariant of real chess positions: a
position with no legal moves is game-over (checkmate or stalemate). -/
def noStuck : GameTree → Bool
  | .node b ms => (b.is_game_over || !ms.isEmpty) && noStuckList ms

/-- `noStuck` for every tree in a move list. -/
def noStuckList : List (Nat × GameTree) → Bool
  | [] => true
  | p :: rest => noStuck p.2 && noStuckList rest

end

mutual

/-- `Bot.minimax` once more, now with the Python `int` depth (which may be
negative) and an explicit recursion budget: `fuel` is the number of
remaining interpreter stack frames and `.error "RecursionError"` models
exceeding the recursion limit.  The source contains no validation of
`depth`, which this embedding reproduces: the only guard is
`depth == 0 or self.board.is_game_over()`.  (The board-stack
instrumentation of `minimax` is omitted here.) -/
def minimaxI (c : Bool) : Nat → Int → GameTree → ScoreE → ScoreE → Bool →
    Except String (ScoreE × Option Nat)
  | 0, _, _, _, _, _ => .error "RecursionError"
  | fuel + 1, depth, t, alpha, beta, maximizing_player =>
    if depth = 0 ∨ t.board.is_game_over then
      .ok (finScore (evaluate_board c t.board), none)
    else if maximizing_player then
      maxGoI c fuel (depth - 1) beta t.moves ⊥ alpha none
    else
      minGoI c fuel (depth - 1) alpha t.moves ⊤ beta none
termination_by fuel _ _ _ _ _ => (fuel, 0)

/-- Maximizing loop of `minimaxI`; a `RecursionError` in a recursive call
propagates (the Python exception unwinds the loop). -/
def maxGoI (c : Bool) (fuel : Nat) (depth : Int) (beta : ScoreE) :
    List (Nat × GameTree) → ScoreE → ScoreE → Option Nat →
    Except String (ScoreE × Option Nat)
  | [], best_eval, _, best_move => .ok (best_eval, best_move)
  | (m, child) :: rest, best_eval, alpha, best_move =>
      match minimaxI c fuel depth child alpha beta false with
      | .error e => .error e
      | .ok r =>
        let evaluation := r.1
        let best_eval' := if best_eval < evaluation then evaluation else best_eval
        let best_move' := if best_eval < evaluation then some m else best_move
        let alpha' := max alpha best_eval'
        if beta ≤ alpha' then .ok (best_eval', best_move')
        else maxGoI c fuel depth beta rest best_eval' alpha' best_move'
termination_by l _ _ _ => (fuel, l.length + 1)

/-- Minimizing loop of `minimaxI`. -/
def minGoI (c : Bool) (fuel : Nat) (depth : Int) (alpha : ScoreE) :
    List (Nat × GameTree) → ScoreE → ScoreE → Option Nat →
    Except String (ScoreE × Option Nat)
  | [], best_eval, _, best_move => .ok (best_eval, best_move)
  | (m, child) :: rest, best_eval, beta, best_move =>
      match minimaxI c fuel depth child alpha beta true with
      | .error e => .error e
      | .ok r =>
        let evaluation := r.1
        let best_eval' := if evaluation < best_eval then evaluation else best_eval
        let best_move' := if evaluation < best_eval then some m else best_move
        let beta' := min beta best_eval'
        if beta' ≤ alpha then .ok (best_eval', best_move')
        else minGoI c fuel depth alpha rest best_eval' beta' best_move'
termination_by l _ _ _ => (fuel, l.length + 1)

end

/-! ### Concrete boards and helper lemmas for the evaluator claims -/

/-- Kings on their home squares, no other pieces; black retains only the
queenside castling right (so the kingside penalty condition fires and the
king-exposure bonus does not). -/
def boardC3 : Board where
  piece_at := fun sq => if sq = e1 then some ⟨.king, true⟩
    else if sq = e8 then some ⟨.king, false⟩ else none
  has_kingside_castling_rights := fun _ => false
  has_queenside_castling_rights := fun col => col = false
  king := fun col => if col then some e1 else some e8
  is_checkmate := false
  is_game_over := false
  attacks_len := fun _ => 3
  attackers_len := fun _ _ => 0
  pieces := fun _ _ => []

/-- `boardC3` with black's kingside castling right restored (the only
difference), so that no penalty condition fires. -/
def boardC3r : Board :=
  { boardC3 with has_kingside_castling_rights := fun col => col = false }

/-- The starting placement of kings with all castling rights intact, no
other pieces; used to evaluate the own-king-safety term for a bot playing
black. -/
def boardC4 : Board where
  piece_at := fun sq => if sq = e1 then some ⟨.king, true⟩
    else if sq = e8 then some ⟨.king, false⟩ else none
  has_kingside_castling_rights := fun _ => true
  has_queenside_castling_rights := fun _ => true
  king := fun col => if col then some e1 else some e8
  is_checkmate := false
  is_game_over := false
  attacks_len := fun _ => 3
  attackers_len := fun _ _ => 0
  pieces := fun _ _ => []

/-- Per-square contribution of the material loop of `evaluate_board`. -/
def square_delta (c : Bool) (b : Board) (sq : Nat) : ℚ :=
  match b.piece_at sq with
  | some piece =>
      if piece.color = c then get_piece_value c piece sq
      else -(get_piece_value c piece sq)
  | none => 0

/-- The number of occupied central squares, as a rational. -/
def center_occupancy (b : Board) : ℚ :=
  (squares.map
    (fun sq => if (b.piece_at sq).isSome ∧ sq ∈ centralSquares then (1 : ℚ) else 0)).sum

/-- A lone white pawn on a central square (d4). -/
def boardC9 : Board where
  piece_at := fun sq => if sq = 27 then some ⟨.pawn, true⟩ else none
  has_kingside_castling_rights := fun _ => false
  has_queenside_castling_rights := fun _ => false
  king := fun _ => none
  is_checkmate := false
  is_game_over := false
  attacks_len := fun _ => 0
  attackers_len := fun _ _ => 0
  pieces := fun _ _ => []

/-- An empty, game-over board (e.g. reached after the game ended); both
kings absent, so its evaluation is the bare material sum 0. -/
def boardOver : Board where
  piece_at := fun _ => none
  has_kingside_castling_rights := fun _ => false
  has_queenside_castling_rights := fun _ => false
  king := fun _ => none
  is_checkmate := false
  is_game_over := true
  attacks_len := fun _ => 0
  attackers_len := fun _ _ => 0
  pieces := fun _ _ => []

/-- An empty board that is not game-over. -/
def boardLive : Board where
  piece_at := fun _ => none
  has_kingside_castling_rights := fun _ => false
  has_queenside_castling_rights := fun _ => false
  king := fun _ => none
  is_checkmate := false
  is_game_over := false
  attacks_len := fun _ => 0
  attackers_len := fun _ _ => 0
  pieces := fun _ _ => []

/-- A terminal (game-over) leaf position. -/
def treeOver : GameTree := .node boardOver []

/-- A live position with a single legal move (move id 7) into `treeOver`. -/
def treeLive : GameTree := .node boardLive [(7, treeOver)]

/-- The defensive edge case: not game-over, yet no legal move (cannot
arise from the real rules engine). -/
def treeStuck : GameTree := .node boardLive []

/-- The fail-soft alpha-beta specification relating a pruned score `r` to
the unpruned score `F` on the window `(alpha, beta)`. -/
def ABSpec (r F alpha beta : ScoreE) : Prop :=
  (r ≤ alpha → F ≤ r) ∧ (beta ≤ r → r ≤ F) ∧ (alpha < r → r < beta → r = F)

/-- `squares` as a literal list. -/
theorem squares_expand : squares =
    [0,1,2,3,4,5,6,7,8,9,10,11,12,13,14,15,16,17,18,19,20,21,22,23,24,25,26,
     27,28,29,30,31,32,33,34,35,36,37,38,39,40,41,42,43,44,45,46,47,48,49,50,
     51,52,53,54,55,56,57,58,59,60,61,62,63] := by decide

set_option maxRecDepth 8000 in
/-- C3 counterexample: black has lost the kingside right and the black
king is on e8, yet the total evaluation from white's perspective is `+2`
compared to the identical position where the right is still held (and
`+2` over the evaluation without the penalty term) - the penalty term
raises the score by 2 instead of lowering it by 2. -/
theorem C3_counterexample :
    boardC3.has_kingside_castling_rights false = false ∧
    boardC3.king false = some e8 ∧
    boardC3r.has_kingside_castling_rights false = true ∧
    evaluate_board true boardC3r = 0 ∧
    evaluate_board true boardC3 = 2 ∧
    evaluate_board true boardC3 = evaluate_board_sans_penalty true boardC3 + 2 := by
  refine ⟨rfl, rfl, rfl, ?_, ?_, ?_⟩ <;>
    (simp only [evaluate_board, evaluate_board_sans_penalty, material_score,
      squares_expand, List.foldl, boardC3, boardC3r, get_piece_value,
      get_king_safety_bonus, get_checkmate_threat_bonus,
      get_attack_against_king_bonus, get_king_safety_penalty,
      get_protect_key_pieces_bonus, is_king_exposed, e1, e8, centralSquares];
     norm_num)

/-- C3 (amended): when both kings are present, each fired condition of the
king-safety-penalty term RAISES the total evaluation by 2 (up to +4): the
term returns `-2` per condition (opponent lost the castling right and the
opponent king stands on e8, as hard-coded) and `evaluate_board` subtracts
this negative value. -/
theorem C3_penalty_raises_total (c : Bool) (b : Board) (mk opk : Nat)
    (hmy : b.king c = some mk) (hop : b.king (!c) = some opk) :
    evaluate_board c b = evaluate_board_sans_penalty c b
      + (if ¬ b.has_kingside_castling_rights (!c) ∧ opk = e8 then 2 else 0)
      + (if ¬ b.has_queenside_castling_rights (!c) ∧ opk = e8 then 2 else 0) := by
  simp only [evaluate_board, evaluate_board_sans_penalty,
    get_king_safety_penalty, hmy, hop]
  split_ifs <;> ring

/-- C3 witness: the amended statement instantiated at `boardC3`. -/
theorem C3_witness :
    evaluate_board true boardC3 = evaluate_board_sans_penalty true boardC3
      + (if ¬ boardC3.has_kingside_castling_rights (!true) ∧ e8 = e8 then 2 else 0)
      + (if ¬ boardC3.has_queenside_castling_rights (!true) ∧ e8 = e8 then 2 else 0) :=
  C3_penalty_raises_total true boardC3 e1 e8 rfl rfl

/-- C4 (code bug): `get_king_safety_bonus` compares the own king square to
`chess.E1` for either color, so a black bot whose king is on its home
square e8 with both castling rights held receives no bonus at all, while
the same term for white on e1 stacks both `+2` bonuses to `+4`. -/
theorem C4_black_home_square_gets_no_bonus :
    boardC4.has_kingside_castling_rights false = true ∧
    boardC4.has_queenside_castling_rights false = true ∧
    boardC4.king false = some e8 ∧
    get_king_safety_bonus false boardC4 e8 = 0 ∧
    get_king_safety_bonus true boardC4 e1 = 4 := by
  refine ⟨rfl, rfl, rfl, ?_, ?_⟩ <;>
    (simp only [get_king_safety_bonus, boardC4, e1, e8]; norm_num)

/-- The material fold accumulates the per-square contributions. -/
lemma material_foldl_eq (c : Bool) (b : Board) :
    ∀ (l : List Nat) (s : ℚ),
      l.foldl
        (fun score square =>
          match b.piece_at square with
          | some piece =>
              if piece.color = c then score + get_piece_value c piece square
              else score - get_piece_value c piece square
          | none => score) s
      = s + (l.map (square_delta c b)).sum
  | [], s => by simp
  | sq :: rest, s => by
      simp only [List.foldl_cons, List.map_cons, List.sum_cons]
      rw [material_foldl_eq c b rest]
      rcases hp : b.piece_at sq with _ | p <;>
        simp only [square_delta, hp]
      · ring
      · by_cases hc : p.color = c <;> simp only [hc, if_true, if_false] <;> ring

/-- `material_score` as a sum of per-square contributions. -/
lemma material_score_eq_sum (c : Bool) (b : Board) :
    material_score c b = (squares.map (square_delta c b)).sum := by
  unfold material_score
  rw [material_foldl_eq]
  ring

/-- A square's contributions to the white-perspective and the
black-perspective material loops sum to 1 exactly when an occupied central
square is involved: the base piece value cancels, while the `±0.5`
center adjustment is `+0.5` from both perspectives. -/
lemma square_delta_white_black (b : Board) (sq : Nat) :
    square_delta true b sq + square_delta false b sq =
      if (b.piece_at sq).isSome ∧ sq ∈ centralSquares then 1 else 0 := by
  rcases hp : b.piece_at sq with _ | ⟨pt, pc⟩ <;>
    simp only [square_delta, hp, Option.isSome_none, Option.isSome_some]
  · norm_num
  · by_cases hmem : sq ∈ centralSquares <;>
      cases pc <;> cases pt <;>
      simp [get_piece_value, hmem] <;> norm_num

set_option maxRecDepth 8000 in
/-- C9 counterexample: with a lone white pawn on d4 the material loop
yields `3/2` from white's perspective but `-1/2` from black's perspective
- not exact negations, because the center adjustment enters with the same
sign from both perspectives. -/
theorem C9_counterexample :
    material_score true boardC9 = 3/2 ∧
    material_score false boardC9 = -(1/2) ∧
    ¬ (material_score true boardC9 = -(material_score false boardC9)) := by
  have h1 : material_score true boardC9 = 3/2 := by
    simp only [material_score, squares_expand, List.foldl, boardC9,
      get_piece_value, centralSquares]
    norm_num
  have h2 : material_score false boardC9 = -(1/2) := by
    simp only [material_score, squares_expand, List.foldl, boardC9,
      get_piece_value, centralSquares]
    norm_num
  refine ⟨h1, h2, ?_⟩
  rw [h1, h2]
  norm_num

/-- C9 (amended): the piece-value part of the material loop is
antisymmetric in the perspective, but the per-piece center-control `±0.5`
adjustment is perspective-independent, so the white-perspective and
black-perspective material terms sum to the number of occupied central
squares instead of to zero; exact negation holds precisely on positions
with no occupied central square. -/
theorem C9_material_antisymmetry_defect (b : Board) :
    material_score true b + material_score false b = center_occupancy b := by
  rw [material_score_eq_sum, material_score_eq_sum]
  unfold center_occupancy
  have h : ∀ l : List Nat,
      (l.map (square_delta true b)).sum + (l.map (square_delta false b)).sum =
      (l.map
        (fun sq => if (b.piece_at sq).isSome ∧ sq ∈ centralSquares then (1 : ℚ) else 0)).sum := by
    intro l
    induction l with
    | nil => simp
    | cons x xs ih =>
        simp only [List.map_cons, List.sum_cons]
        rw [← square_delta_white_black b x, ← ih]
        ring
  exact h squares

/-! ### Concrete boards and trees for the search claims -/

/-! ### Board-stack restoration (claim C2) -/

/-- The maximizing loop leaves the board stack unchanged, provided each
recursive call does: the push of `m` is undone by the `pop` (`List.tail`)
after the call, on the normal path and on the `beta <= alpha` break
alike. -/
lemma maxGo_stack (c : Bool) (depth : Nat) (beta : ScoreE) :
    ∀ (l : List (Nat × GameTree)),
      (∀ p ∈ l, ∀ (alpha : ScoreE) (st : List Nat),
        (minimax c depth p.2 alpha beta false st).2 = st) →
      ∀ (best alpha : ScoreE) (bm : Option Nat) (st : List Nat),
        (maxGo c depth beta l best alpha bm st).2 = st
  | [], _, best, alpha, bm, st => by simp [maxGo]
  | (m, child) :: rest, IH, best, alpha, bm, st => by
      have hchild := IH (m, child) (List.mem_cons_self _ _) alpha (m :: st)
      simp only [maxGo, hchild, List.tail_cons]
      split_ifs <;>
        first
          | rfl
          | exact maxGo_stack c depth beta rest
              (fun p hp => IH p (List.mem_cons_of_mem _ hp)) _ _ _ st

/-- The minimizing loop leaves the board stack unchanged. -/
lemma minGo_stack (c : Bool) (depth : Nat) (alpha : ScoreE) :
    ∀ (l : List (Nat × GameTree)),
      (∀ p ∈ l, ∀ (beta : ScoreE) (st : List Nat),
        (minimax c depth p.2 alpha beta true st).2 = st) →
      ∀ (best beta : ScoreE) (bm : Option Nat) (st : List Nat),
        (minGo c depth alpha l best beta bm st).2 = st
  | [], _, best, beta, bm, st => by simp [minGo]
  | (m, child) :: rest, IH, best, beta, bm, st => by
      have hchild := IH (m, child) (List.mem_cons_self _ _) beta (m :: st)
      simp only [minGo, hchild, List.tail_cons]
      split_ifs <;>
        first
          | rfl
          | exact minGo_stack c depth alpha rest
              (fun p hp => IH p (List.mem_cons_of_mem _ hp)) _ _ _ st

/-- `minimax` leaves the board stack exactly as it found it. -/
lemma minimax_stack (c : Bool) (depth : Nat) :
    ∀ (t : GameTree) (alpha beta : ScoreE) (maximizing_player : Bool)
      (st : List Nat),
      (minimax c depth t alpha beta maximizing_player st).2 = st := by
  induction depth with
  | zero => intro t alpha beta maxim st; simp [minimax]
  | succ d ih =>
      intro t alpha beta maxim st
      rw [minimax]
      split
      · rfl
      · split
        · exact maxGo_stack c d beta t.moves
            (fun p _ alpha' st' => ih p.2 alpha' beta false st') ⊥ alpha none st
        · exact minGo_stack c d alpha t.moves
            (fun p _ beta' st' => ih p.2 alpha beta' true st') ⊤ beta none st

/-- C2: for every position, depth, window, player flag and starting board
state, `minimax` returns the shared board exactly as it found it - every
`push` is matched by a `pop`, including on the `beta <= alpha` pruning
exit - and hence so do `get_best_move` / `next_move`, which only wrap the
root call. -/
theorem C2_board_restored (c : Bool) (depth : Nat) (t : GameTree)
    (alpha beta : ScoreE) (maximizing_player : Bool) (st : List Nat) :
    (minimax c depth t alpha beta maximizing_player st).2 = st :=
  minimax_stack c depth t alpha beta maximizing_player st

/-- C5: at depth 0 or on any position the rules engine flags as game-over,
`minimax` returns `(evaluate_board(), None)` immediately (in particular it
touches no legal move: the board stack is returned untouched as part of
the same equation). -/
theorem C5_terminal_short_circuit (c : Bool) (depth : Nat) (t : GameTree)
    (alpha beta : ScoreE) (maximizing_player : Bool) (st : List Nat)
    (h : depth = 0 ∨ t.board.is_game_over = true) :
    minimax c depth t alpha beta maximizing_player st =
      ((finScore (evaluate_board c t.board), none), st) := by
  rcases h with h | h
  · subst h; simp [minimax]
  · cases depth with
    | zero => simp [minimax]
    | succ d => simp [minimax, h]

/-- C5 witness: a checkmated/terminal position searched at depth 3 yields
the evaluator's score and no move. -/
theorem C5_witness :
    minimax true 3 treeOver ⊥ ⊤ true [] =
      ((finScore (evaluate_board true treeOver.board), none), []) :=
  C5_terminal_short_circuit true 3 treeOver ⊥ ⊤ true [] (Or.inr rfl)

/-! ### Returned moves come from the legal-move list (claim C10) -/

/-- A move returned by the maximizing loop is either the incoming
accumulator or one of the list's own move ids. -/
lemma maxGo_move_mem (c : Bool) (depth : Nat) (beta : ScoreE) :
    ∀ (l : List (Nat × GameTree)) (best alpha : ScoreE) (bm : Option Nat)
      (st : List Nat) (m : Nat),
      (maxGo c depth beta l best alpha bm st).1.2 = some m →
      bm = some m ∨ m ∈ l.map Prod.fst
  | [], best, alpha, bm, st, m => by
      simp only [maxGo]
      exact fun h => Or.inl h
  | (mv, child) :: rest, best, alpha, bm, st, m => by
      simp only [maxGo]
      split_ifs <;> intro h <;>
        first
          | exact Or.inl h
          | exact Or.inr (by
              rw [List.map_cons]
              obtain rfl := Option.some_inj.mp h
              exact List.mem_cons_self _ _)
          | (rcases maxGo_move_mem c depth beta rest _ _ _ _ _ h with h' | h' <;>
              first
                | exact Or.inl h'
                | exact Or.inr (by
                    rw [List.map_cons]
                    exact List.mem_cons_of_mem _ h')
                | exact Or.inr (by
                    rw [List.map_cons]
                    obtain rfl := Option.some_inj.mp h'
                    exact List.mem_cons_self _ _))

/-- A move returned by the minimizing loop is either the incoming
accumulator or one of the list's own move ids. -/
lemma minGo_move_mem (c : Bool) (depth : Nat) (alpha : ScoreE) :
    ∀ (l : List (Nat × GameTree)) (best beta : ScoreE) (bm : Option Nat)
      (st : List Nat) (m : Nat),
      (minGo c depth alpha l best beta bm st).1.2 = some m →
      bm = some m ∨ m ∈ l.map Prod.fst
  | [], best, beta, bm, st, m => by
      simp only [minGo]
      exact fun h => Or.inl h
  | (mv, child) :: rest, best, beta, bm, st, m => by
      simp only [minGo]
      split_ifs <;> intro h <;>
        first
          | exact Or.inl h
          | exact Or.inr (by
              rw [List.map_cons]
              obtain rfl := Option.some_inj.mp h
              exact List.mem_cons_self _ _)
          | (rcases minGo_move_mem c depth alpha rest _ _ _ _ _ h with h' | h' <;>
              first
                | exact Or.inl h'
                | exact Or.inr (by
                    rw [List.map_cons]
                    exact List.mem_cons_of_mem _ h')
                | exact Or.inr (by
                    rw [List.map_cons]
                    obtain rfl := Option.some_inj.mp h'
                    exact List.mem_cons_self _ _))

/-- C10: whenever `minimax` returns an actual move, that move is one of
the legal moves the call itself enumerated at its root position. -/
theorem C10_returned_move_is_legal (c : Bool) (depth : Nat) (t : GameTree)
    (alpha beta : ScoreE) (maximizing_player : Bool) (st : List Nat) (m : Nat)
    (h : (minimax c depth t alpha beta maximizing_player st).1.2 = some m) :
    m ∈ t.moves.map Prod.fst := by
  cases depth with
  | zero =>
      rw [minimax] at h
      exact Option.noConfusion h
  | succ d =>
      rw [minimax] at h
      split at h
      · exact Option.noConfusion h
      · split at h
        · rcases maxGo_move_mem c d beta t.moves ⊥ alpha none st m h with h' | h'
          · exact Option.noConfusion h'
          · exact h'
        · rcases minGo_move_mem c d alpha t.moves ⊤ beta none st m h with h' | h'
          · exact Option.noConfusion h'
          · exact h'

/-! ### Order facts about the score sentinels -/

/-- `-inf` is below every finite score. -/
lemma bot_lt_finScore (q : ℚ) : (⊥ : ScoreE) < finScore q := WithBot.bot_lt_coe _

/-- A finite score is not `+inf`. -/
lemma finScore_ne_top (q : ℚ) : finScore q ≠ (⊤ : ScoreE) := by simp [finScore]

/-- A finite score is not `-inf`. -/
lemma finScore_ne_bot (q : ℚ) : finScore q ≠ (⊥ : ScoreE) := by simp [finScore]

/-- Every finite score is below `+inf`. -/
lemma finScore_lt_top (q : ℚ) : finScore q < (⊤ : ScoreE) :=
  lt_top_iff_ne_top.mpr (finScore_ne_top q)

/-- `+inf` is not below or at a finite score. -/
lemma not_top_le_finScore (q : ℚ) : ¬ (⊤ : ScoreE) ≤ finScore q := by
  simp [top_le_iff, finScore_ne_top q]

/-- `-inf` is not above or at a finite score. -/
lemma not_finScore_le_bot (q : ℚ) : ¬ finScore q ≤ (⊥ : ScoreE) := by
  simp [le_bot_iff, finScore_ne_bot q]

/-- `max` with `-inf` on the left. -/
lemma max_bot (x : ScoreE) : max ⊥ x = x := max_eq_right bot_le

/-- `min` with `+inf` on the left. -/
lemma min_top (x : ScoreE) : min ⊤ x = x := min_eq_right le_top

/-- C10 witness: on a live position with the single legal move 7, the
returned move is 7, which the theorem places in the legal-move list. -/
theorem C10_witness : 7 ∈ treeLive.moves.map Prod.fst :=
  C10_returned_move_is_legal true 1 treeLive ⊥ ⊤ true [] 7 (by
    simp [minimax, maxGo, treeLive, treeOver, GameTree.board, GameTree.moves,
      boardLive, boardOver, bot_lt_finScore, max_bot, not_top_le_finScore])

/-! ### Sentinel scores (claim C8) -/

/-- Unpacking `noStuckList`. -/
lemma noStuckList_mem :
    ∀ (l : List (Nat × GameTree)), noStuckList l = true →
      ∀ p ∈ l, noStuck p.2 = true := by
  intro l
  induction l with
  | nil => intro _ p hp; cases hp
  | cons x xs ih =>
      intro h p hp
      rw [noStuckList, Bool.and_eq_true] at h
      rcases List.mem_cons.mp hp with rfl | hp'
      · exact h.1
      · exact ih h.2 p hp'

/-- Unpacking `noStuck` at a node. -/
lemma noStuck_split {b : Board} {ms : List (Nat × GameTree)}
    (h : noStuck (.node b ms) = true) :
    (b.is_game_over = false → ms ≠ []) ∧ ∀ p ∈ ms, noStuck p.2 = true := by
  rw [noStuck, Bool.and_eq_true] at h
  refine ⟨?_, noStuckList_mem ms h.2⟩
  intro hov hnil
  subst hnil
  simp [hov] at h

/-- If every child call yields a finite score and the running best is
`-inf` only when moves remain, the maximizing loop yields a finite
score. -/
lemma maxGo_fin (c : Bool) (depth : Nat) (beta : ScoreE) :
    ∀ (l : List (Nat × GameTree)) (best alpha : ScoreE) (bm : Option Nat)
      (st : List Nat),
      (∀ p ∈ l, ∀ (alpha' : ScoreE) (st' : List Nat),
        ∃ q, (minimax c depth p.2 alpha' beta false st').1.1 = finScore q) →
      (best = ⊥ → l ≠ []) →
      (best = ⊥ ∨ ∃ q, best = finScore q) →
      ∃ q, (maxGo c depth beta l best alpha bm st).1.1 = finScore q
  | [], best, alpha, bm, st, hch, hne, hfin => by
      rcases hfin with rfl | ⟨q, rfl⟩
      · exact absurd rfl (hne rfl)
      · exact ⟨q, by simp [maxGo]⟩
  | (m, child) :: rest, best, alpha, bm, st, hch, hne, hfin => by
      obtain ⟨q, hq⟩ := hch (m, child) (List.mem_cons_self _ _) alpha (m :: st)
      simp only [maxGo, hq]
      by_cases hlt : best < finScore q
      · simp only [hlt, if_true]
        split
        · exact ⟨q, rfl⟩
        · exact maxGo_fin c depth beta rest (finScore q) _ _ _
            (fun p hp => hch p (List.mem_cons_of_mem _ hp))
            (fun hbot => absurd hbot (finScore_ne_bot q))
            (Or.inr ⟨q, rfl⟩)
      · simp only [hlt, if_false]
        rcases hfin with rfl | ⟨q', rfl⟩
        · exact absurd (bot_lt_finScore q) hlt
        · split
          · exact ⟨q', rfl⟩
          · exact maxGo_fin c depth beta rest (finScore q') _ _ _
              (fun p hp => hch p (List.mem_cons_of_mem _ hp))
              (fun hbot => absurd hbot (finScore_ne_bot q'))
              (Or.inr ⟨q', rfl⟩)

/-- If every child call yields a finite score and the running best is
`+inf` only when moves remain, the minimizing loop yields a finite
score. -/
lemma minGo_fin (c : Bool) (depth : Nat) (alpha : ScoreE) :
    ∀ (l : List (Nat × GameTree)) (best beta : ScoreE) (bm : Option Nat)
      (st : List Nat),
      (∀ p ∈ l, ∀ (beta' : ScoreE) (st' : List Nat),
        ∃ q, (minimax c depth p.2 alpha beta' true st').1.1 = finScore q) →
      (best = ⊤ → l ≠ []) →
      (best = ⊤ ∨ ∃ q, best = finScore q) →
      ∃ q, (minGo c depth alpha l best beta bm st).1.1 = finScore q
  | [], best, beta, bm, st, hch, hne, hfin => by
      rcases hfin with rfl | ⟨q, rfl⟩
      · exact absurd rfl (hne rfl)
      · exact ⟨q, by simp [minGo]⟩
  | (m, child) :: rest, best, beta, bm, st, hch, hne, hfin => by
      obtain ⟨q, hq⟩ := hch (m, child) (List.mem_cons_self _ _) beta (m :: st)
      simp only [minGo, hq]
      by_cases hlt : finScore q < best
      · simp only [hlt, if_true]
        split
        · exact ⟨q, rfl⟩
        · exact minGo_fin c depth alpha rest (finScore q) _ _ _
            (fun p hp => hch p (List.mem_cons_of_mem _ hp))
            (fun htop => absurd htop (finScore_ne_top q))
            (Or.inr ⟨q, rfl⟩)
      · simp only [hlt, if_false]
        rcases hfin with rfl | ⟨q', rfl⟩
        · exact absurd (finScore_lt_top q) hlt
        · split
          · exact ⟨q', rfl⟩
          · exact minGo_fin c depth alpha rest (finScore q') _ _ _
              (fun p hp => hch p (List.mem_cons_of_mem _ hp))
              (fun htop => absurd htop (finScore_ne_top q'))
              (Or.inr ⟨q', rfl⟩)

/-- On game trees satisfying the real-chess invariant `noStuck`, `minimax`
always returns a finite score: the sentinels never escape. -/
lemma minimax_fin (c : Bool) (depth : Nat) :
    ∀ (t : GameTree) (alpha beta : ScoreE) (maximizing_player : Bool)
      (st : List Nat),
      noStuck t = true →
      ∃ q : ℚ, (minimax c depth t alpha beta maximizing_player st).1.1 = finScore q := by
  induction depth with
  | zero => intro t alpha beta maxim st _; exact ⟨_, by rw [minimax]⟩
  | succ d ih =>
      intro t alpha beta maxim st h
      obtain ⟨b, ms⟩ := t
      obtain ⟨hne, hch⟩ := noStuck_split h
      rw [minimax]
      by_cases hover : b.is_game_over = true
      · rw [if_pos (by simpa [GameTree.board] using hover)]
        exact ⟨_, rfl⟩
      · rw [if_neg (by simpa [GameTree.board] using hover)]
        replace hover := Bool.eq_false_iff.mpr hover
        cases maxim
        · rw [if_neg (by simp)]
          exact minGo_fin c d alpha (GameTree.moves (.node b ms)) ⊤ beta none st
            (fun p hp beta' st' => ih p.2 alpha beta' true st' (hch p hp))
            (fun _ => hne hover) (Or.inl rfl)
        · rw [if_pos rfl]
          exact maxGo_fin c d beta (GameTree.moves (.node b ms)) ⊥ alpha none st
            (fun p hp alpha' st' => ih p.2 alpha' beta false st' (hch p hp))
            (fun _ => hne hover) (Or.inl rfl)

/-- C8: two facts about the infinity sentinels.  (a) Defensive edge case:
on a position that is not game-over but has an empty legal-move list,
`minimax` at positive depth returns the seeded sentinel (`-inf` when
maximizing, `+inf` when minimizing) with no move.  (b) On any game tree
satisfying the real rules-engine invariant that move-less positions are
game-over (`noStuck`), the score returned is always finite - the
sentinels are never returned as a real evaluation. -/
theorem C8_sentinel_scores (c : Bool) :
    (∀ (depth : Nat) (t : GameTree) (alpha beta : ScoreE)
        (maximizing_player : Bool) (st : List Nat),
        t.board.is_game_over = false → t.moves = [] →
        (minimax c (depth + 1) t alpha beta maximizing_player st).1 =
          ((if maximizing_player then (⊥ : ScoreE) else ⊤), none)) ∧
    (∀ (depth : Nat) (t : GameTree) (alpha beta : ScoreE)
        (maximizing_player : Bool) (st : List Nat),
        noStuck t = true →
        ∃ q : ℚ, (minimax c depth t alpha beta maximizing_player st).1.1 = finScore q) := by
  constructor
  · intro depth t alpha beta maxim st hover hmoves
    rw [minimax, if_neg (by simp [hover])]
    cases maxim <;> simp [hmoves, maxGo, minGo]
  · intro depth t alpha beta maxim st h
    exact minimax_fin c depth t alpha beta maxim st h

/-- C8 witness: the stuck position yields `(-inf, none)` when maximized at
depth 1; the live one-move position yields a finite score. -/
theorem C8_witness :
    (minimax true (0 + 1) treeStuck ⊥ ⊤ true []).1 =
      ((if true then (⊥ : ScoreE) else ⊤), none) ∧
    ∃ q : ℚ, (minimax true 1 treeLive ⊥ ⊤ true []).1.1 = finScore q :=
  ⟨(C8_sentinel_scores true).1 0 treeStuck ⊥ ⊤ true [] rfl rfl,
   (C8_sentinel_scores true).2 1 treeLive ⊥ ⊤ true []
     (by simp [noStuck, noStuckList, treeLive, treeOver, boardLive, boardOver])⟩

/-! ### Shape of the root result (claim C7) -/

/-- Once the maximizing loop holds a move, it never drops it. -/
lemma maxGo_keeps_some (c : Bool) (depth : Nat) (beta : ScoreE) :
    ∀ (l : List (Nat × GameTree)) (best alpha : ScoreE) (bm : Option Nat)
      (st : List Nat), bm.isSome = true →
      ((maxGo c depth beta l best alpha bm st).1.2).isSome = true
  | [], best, alpha, bm, st, h => by simpa [maxGo] using h
  | (m, child) :: rest, best, alpha, bm, st, h => by
      simp only [maxGo]
      split_ifs
      · simp
      · exact maxGo_keeps_some c depth beta rest _ _ _ _ rfl
      · exact h
      · exact maxGo_keeps_some c depth beta rest _ _ _ _ h

/-- At a live root with at least one legal move, a maximizing search at
positive depth always reports a move (on `noStuck` trees). -/
lemma minimax_root_some (c : Bool) (d : Nat) (t : GameTree)
    (hns : noStuck t = true) (hover : t.board.is_game_over = false)
    (hmoves : t.moves ≠ []) :
    ((minimax c (d + 1) t ⊥ ⊤ true []).1.2).isSome = true := by
  obtain ⟨b, ms⟩ := t
  obtain ⟨-, hch⟩ := noStuck_split hns
  simp only [GameTree.moves] at hmoves hch
  rw [minimax, if_neg (by simp [hover]), if_pos rfl]
  simp only [GameTree.moves]
  rcases ms with - | ⟨⟨m, child⟩, rest⟩
  · exact absurd rfl hmoves
  · obtain ⟨q, hq⟩ := minimax_fin c d child ⊥ ⊤ false [m]
      (hch (m, child) (List.mem_cons_self _ _))
    simp only [maxGo, hq, bot_lt_finScore q, if_true]
    split
    · simp
    · exact maxGo_keeps_some c d ⊤ rest _ _ _ _ rfl

/-- C7: `get_best_move` returns the full `(score, move-or-none)` pair of
the root `minimax` call (not a bare move): its move component is `none`
when no legal move exists, and is an actual move whenever the position is
live with at least one legal move, the depth is positive, and the tree
satisfies the rules-engine invariant `noStuck`. -/
theorem C7_best_move_shape (c : Bool) (depth : Nat) (t : GameTree) :
    get_best_move c depth t = (minimax c depth t ⊥ ⊤ true []).1 ∧
    (t.moves = [] → (get_best_move c depth t).2 = none) ∧
    (noStuck t = true → t.board.is_game_over = false → t.moves ≠ [] →
      0 < depth → ∃ m, (get_best_move c depth t).2 = some m) := by
  refine ⟨rfl, ?_, ?_⟩
  · intro hmoves
    cases depth with
    | zero => simp [get_best_move, minimax]
    | succ d =>
        rw [get_best_move, minimax]
        split
        · rfl
        · rw [if_pos rfl, hmoves, maxGo]
  · intro hns hover hmoves hd
    cases depth with
    | zero => exact absurd hd (lt_irrefl 0)
    | succ d =>
        exact Option.isSome_iff_exists.mp
          (minimax_root_some c d t hns hover hmoves)

/-- C7 counterexample: on the live one-move position, `get_best_move`
returns the pair `(score, move)` - the first component is the evaluation
of the reached leaf, not a move - so the result is not a bare
move-or-none value. -/
theorem C7_counterexample :
    get_best_move true 1 treeLive =
      (finScore (evaluate_board true boardOver), some 7) := by
  simp [get_best_move, minimax, maxGo, treeLive, treeOver, GameTree.board,
    GameTree.moves, boardLive, bot_lt_finScore, max_bot, not_top_le_finScore]

/-- C7 witness: the amended statement instantiated on the live one-move
position at depth 1. -/
theorem C7_witness : ∃ m, (get_best_move true 1 treeLive).2 = some m :=
  (C7_best_move_shape true 1 treeLive).2.2
    (by simp [noStuck, noStuckList, treeLive, treeOver, boardLive, boardOver])
    rfl (by simp [treeLive, GameTree.moves]) (by norm_num)

/-! ### Negative depth (claim C6) -/

/-- C6 (amended): a negative depth is not rejected.  The only guard in
`minimax` is `depth == 0 or self.board.is_game_over()`, so with any
`depth < 0` a game-over position returns `(evaluate_board(), None)`
normally, exactly as it would for a legal depth; nothing in the source
raises or asserts on the sign of `depth`. -/
theorem C6_negative_depth_not_rejected (c : Bool) (fuel : Nat) (depth : Int)
    (t : GameTree) (alpha beta : ScoreE) (maximizing_player : Bool)
    (_hneg : depth < 0) (hover : t.board.is_game_over = true) :
    minimaxI c (fuel + 1) depth t alpha beta maximizing_player =
      .ok (finScore (evaluate_board c t.board), none) := by
  rw [minimaxI, if_pos (Or.inr hover)]

/-- C6 counterexample: called with depth `-1`, the search neither raises a
contract violation nor clamps - on a game-over position it silently
returns a normal result, and on a live position it descends into the
recursion (here with one remaining stack frame it runs into the modelled
interpreter recursion limit instead of any depth check). -/
theorem C6_counterexample :
    minimaxI true 1 (-1) treeOver ⊥ ⊤ true =
      .ok (finScore (evaluate_board true treeOver.board), none) ∧
    minimaxI true 1 (-1) treeLive ⊥ ⊤ true = .error "RecursionError" := by
  constructor
  · simp [minimaxI, treeOver, GameTree.board, boardOver]
  · simp [minimaxI, maxGoI, treeLive, treeOver, GameTree.board,
      GameTree.moves, boardLive]

/-- C6 witness: the amended statement instantiated at depth `-3` on the
terminal position. -/
theorem C6_witness :
    minimaxI false 2 (-3) treeOver ⊥ ⊤ false =
      .ok (finScore (evaluate_board false treeOver.board), none) :=
  C6_negative_depth_not_rejected false 1 (-3) treeOver ⊥ ⊤ false
    (by norm_num) rfl

/-! ### Alpha-beta pruning equivalence (claim C1)

The proof follows the classic fail-soft alpha-beta invariant: for any
window `alpha < beta`, the pruned score `r` and the unpruned score `F`
satisfy: if `r` fails low (`r ≤ alpha`) then `r` is an upper bound on
`F`; if `r` fails high (`beta ≤ r`) then `r` is a lower bound on `F`;
and inside the window `r = F`.  At the root window `(-inf, +inf)` all
three cases force `r = F`. -/

/-- `ABSpec` is trivial when the two scores agree. -/
lemma ABSpec_refl (r alpha beta : ScoreE) : ABSpec r r alpha beta :=
  ⟨fun _ => le_refl r, fun _ => le_refl r, fun _ _ => rfl⟩

/-- The strict-improvement update of the maximizing loop is a `max`. -/
lemma if_lt_eq_max (a b : ScoreE) : (if a < b then b else a) = max a b := by
  rcases le_or_lt b a with h | h
  · rw [if_neg (not_lt.mpr h), max_eq_left h]
  · rw [if_pos h, max_eq_right h.le]

/-- The strict-improvement update of the minimizing loop is a `min`. -/
lemma if_lt_eq_min (a b : ScoreE) : (if b < a then b else a) = min a b := by
  rcases le_or_lt a b with h | h
  · rw [if_neg (not_lt.mpr h), min_eq_left h]
  · rw [if_pos h, min_eq_right h.le]

/-- The unpruned maximizing loop is the `max` of its seed with the loop
started from `-inf` (in particular its score ignores the move
accumulator). -/
lemma fullMaxGo_seed (c : Bool) (d : Nat) :
    ∀ (l : List (Nat × GameTree)) (best : ScoreE) (bm : Option Nat),
      (fullMaxGo c d l best bm).1 = max best (fullMaxGo c d l ⊥ none).1
  | [], best, bm => by
      simp only [fullMaxGo]
      rw [max_eq_left bot_le]
  | (m, ch) :: rest, best, bm => by
      simp only [fullMaxGo, if_lt_eq_max]
      rw [fullMaxGo_seed c d rest (max best (full_minimax c d ch false).1),
        fullMaxGo_seed c d rest (max ⊥ (full_minimax c d ch false).1),
        max_bot, max_assoc]

/-- The unpruned minimizing loop is the `min` of its seed with the loop
started from `+inf`. -/
lemma fullMinGo_seed (c : Bool) (d : Nat) :
    ∀ (l : List (Nat × GameTree)) (best : ScoreE) (bm : Option Nat),
      (fullMinGo c d l best bm).1 = min best (fullMinGo c d l ⊤ none).1
  | [], best, bm => by
      simp only [fullMinGo]
      rw [min_eq_left le_top]
  | (m, ch) :: rest, best, bm => by
      simp only [fullMinGo, if_lt_eq_min]
      rw [fullMinGo_seed c d rest (min best (full_minimax c d ch true).1),
        fullMinGo_seed c d rest (min ⊤ (full_minimax c d ch true).1),
        min_top, min_assoc]

/-- The pruned maximizing loop never drops below its seed. -/
lemma maxGo_ge_seed (c : Bool) (d : Nat) (beta : ScoreE) :
    ∀ (l : List (Nat × GameTree)) (best alpha : ScoreE) (bm : Option Nat)
      (st : List Nat), best ≤ (maxGo c d beta l best alpha bm st).1.1
  | [], best, alpha, bm, st => by simp [maxGo]
  | (m, ch) :: rest, best, alpha, bm, st => by
      simp only [maxGo, if_lt_eq_max]
      split
      · exact le_max_left _ _
      · exact le_trans (le_max_left _ _)
          (maxGo_ge_seed c d beta rest _ _ _ _)

/-- The pruned minimizing loop never rises above its seed. -/
lemma minGo_le_seed (c : Bool) (d : Nat) (alpha : ScoreE) :
    ∀ (l : List (Nat × GameTree)) (best beta : ScoreE) (bm : Option Nat)
      (st : List Nat), (minGo c d alpha l best beta bm st).1.1 ≤ best
  | [], best, beta, bm, st => by simp [minGo]
  | (m, ch) :: rest, best, beta, bm, st => by
      simp only [minGo, if_lt_eq_min]
      split
      · exact min_le_left _ _
      · exact le_trans (minGo_le_seed c d alpha rest _ _ _ _)
          (min_le_left _ _)

/-- Fail-soft invariant of the pruned maximizing loop: if every
(minimizing) child call satisfies `ABSpec` on its window, the loop's
score satisfies `ABSpec` against the unpruned loop started from the same
seed. -/
lemma maxGo_ab (c : Bool) (d : Nat) (beta : ScoreE)
    (IHc : ∀ (t : GameTree) (alpha' : ScoreE) (st' : List Nat), alpha' < beta →
      ABSpec ((minimax c d t alpha' beta false st').1.1)
        ((full_minimax c d t false).1) alpha' beta) :
    ∀ (l : List (Nat × GameTree)) (best alpha : ScoreE) (bm bmf : Option Nat)
      (st : List Nat), best ≤ alpha → alpha < beta →
      ABSpec ((maxGo c d beta l best alpha bm st).1.1)
        ((fullMaxGo c d l best bmf).1) alpha beta
  | [], best, alpha, bm, bmf, st, hba, hab => by
      simp only [maxGo, fullMaxGo]
      exact ABSpec_refl best alpha beta
  | (m, ch) :: rest, best, alpha, bm, bmf, st, hba, hab => by
      simp only [maxGo, fullMaxGo, if_lt_eq_max]
      obtain ⟨hA, hB, hC⟩ := IHc ch alpha (m :: st) hab
      set e := (minimax c d ch alpha beta false (m :: st)).1.1 with he
      set f := (full_minimax c d ch false).1 with hf
      have hae : max alpha (max best e) = max alpha e := by
        rw [← max_assoc, max_eq_left hba]
      simp only [hae]
      rw [fullMaxGo_seed c d rest]
      set M := (fullMaxGo c d rest ⊥ none).1 with hM
      by_cases hbe : beta ≤ e
      · rw [if_pos (le_max_iff.mpr (Or.inr hbe))]
        have hef : e ≤ f := hB hbe
        refine ⟨?_, ?_, ?_⟩
        · intro hra
          exact absurd (le_trans (le_trans hbe (le_max_right best e)) hra)
            (not_le.mpr hab)
        · intro _
          exact le_trans (max_le_max (le_refl best) hef) (le_max_left _ M)
        · intro _ hrb
          exact absurd (lt_of_le_of_lt (le_trans hbe (le_max_right best e)) hrb)
            (lt_irrefl beta)
      · have helt : e < beta := not_le.mp hbe
        rw [if_neg (not_le.mpr (max_lt hab helt))]
        have pre1 : max best e ≤ max alpha e := max_le_max hba (le_refl e)
        have pre2 : max alpha e < beta := max_lt hab helt
        have hrec := maxGo_ab c d beta IHc rest (max best e) (max alpha e)
          (if best < e then some m else bm) none
          ((minimax c d ch alpha beta false (m :: st)).2.tail) pre1 pre2
        rw [fullMaxGo_seed c d rest] at hrec
        set st1 := (minimax c d ch alpha beta false (m :: st)).2.tail with hst1
        set bm1 := (if best < e then some m else bm) with hbm1
        set r' := (maxGo c d beta rest (max best e) (max alpha e) bm1 st1).1.1
          with hr'
        obtain ⟨h1', h2', h3'⟩ := hrec
        have hgrow : max best e ≤ r' := maxGo_ge_seed c d beta rest _ _ _ _
        rcases le_or_lt e alpha with hea | hae2
        · have hfe : f ≤ e := hA hea
          have haea : max alpha e = alpha := max_eq_left hea
          rw [haea] at h1' h3'
          refine ⟨?_, ?_, ?_⟩
          · intro hra
            exact le_trans
              (max_le_max (max_le_max (le_refl best) hfe) (le_refl M))
              (h1' hra)
          · intro hbr
            rcases le_max_iff.mp (h2' hbr) with hcase | hcase
            · exact absurd (le_trans hcase (max_le hba hea))
                (not_le.mpr (lt_of_lt_of_le hab hbr))
            · exact le_trans hcase (le_max_right _ _)
          · intro har hrb
            have h3'' := h3' har hrb
            have hbea : max best e ≤ alpha := max_le hba hea
            have hr_gt : max best e < r' := lt_of_le_of_lt hbea har
            have hrM : r' = M := by
              rcases max_choice (max best e) M with hch | hch
              · rw [hch] at h3''
                exact absurd h3''.symm (ne_of_lt hr_gt)
              · rw [hch] at h3''
                exact h3''
            have hbfM : max best f ≤ M := by
              rw [← hrM]
              exact le_trans (max_le_max (le_refl best) hfe) (le_of_lt hr_gt)
            rw [hrM, max_eq_right hbfM]
        · have hef : e = f := hC hae2 helt
          have haee : max alpha e = e := max_eq_right (le_of_lt hae2)
          rw [haee] at h1' h3'
          refine ⟨?_, ?_, ?_⟩
          · intro hra
            exact absurd
              (lt_of_lt_of_le hae2 (le_trans (le_max_right best e) hgrow))
              (not_lt.mpr hra)
          · intro hbr
            have h2'' := h2' hbr
            rw [hef] at h2''
            exact h2''
          · intro har hrb
            by_cases hre : r' ≤ e
            · have hr_eq : r' = e :=
                le_antisymm hre (le_trans (le_max_right best e) hgrow)
            
              have hG'le := h1' hre
              have h5 : r' ≤ max best e := by
                rw [hr_eq]
                exact le_max_right best e
              have hG'ge : r' ≤ max (max best e) M :=
                le_trans h5 (le_max_left _ _)
              have h6 : r' = max (max best e) M := le_antisymm hG'ge hG'le
              rw [hef] at h6
              exact h6
            · have h7 := h3' (not_le.mp hre) hrb
              rw [hef] at h7
              exact h7

/-- Fail-soft invariant of the pruned minimizing loop, dual to
`maxGo_ab`. -/
lemma minGo_ab (c : Bool) (d : Nat) (alpha : ScoreE)
    (IHc : ∀ (t : GameTree) (beta' : ScoreE) (st' : List Nat), alpha < beta' →
      ABSpec ((minimax c d t alpha beta' true st').1.1)
        ((full_minimax c d t true).1) alpha beta') :
    ∀ (l : List (Nat × GameTree)) (best beta : ScoreE) (bm bmf : Option Nat)
      (st : List Nat), beta ≤ best → alpha < beta →
      ABSpec ((minGo c d alpha l best beta bm st).1.1)
        ((fullMinGo c d l best bmf).1) alpha beta
  | [], best, beta, bm, bmf, st, hbb, hab => by
      simp only [minGo, fullMinGo]
      exact ABSpec_refl best alpha beta
  | (m, ch) :: rest, best, beta, bm, bmf, st, hbb, hab => by
      simp only [minGo, fullMinGo, if_lt_eq_min]
      obtain ⟨hA, hB, hC⟩ := IHc ch beta (m :: st) hab
      set e := (minimax c d ch alpha beta true (m :: st)).1.1 with he
      set f := (full_minimax c d ch true).1 with hf
      have hbe : min beta (min best e) = min beta e := by
        rw [← min_assoc, min_eq_left hbb]
      simp only [hbe]
      rw [fullMinGo_seed c d rest]
      set M := (fullMinGo c d rest ⊤ none).1 with hM
      by_cases hea : e ≤ alpha
      · rw [if_pos (min_le_iff.mpr (Or.inr hea))]
        have hfe : f ≤ e := hA hea
        refine ⟨?_, ?_, ?_⟩
        · intro _
          exact le_trans (min_le_left _ M)
            (min_le_min (le_refl best) hfe)
        · intro hbr
          exact absurd
            (le_trans hbr (le_trans (min_le_right best e) hea))
            (not_le.mpr hab)
        · intro har _
          exact absurd
            (lt_of_lt_of_le har (le_trans (min_le_right best e) hea))
            (lt_irrefl alpha)
      · have haet : alpha < e := not_le.mp hea
        rw [if_neg (not_le.mpr (lt_min hab haet))]
        have pre1 : min beta e ≤ min best e := min_le_min hbb (le_refl e)
        have pre2 : alpha < min beta e := lt_min hab haet
        have hrec := minGo_ab c d alpha IHc rest (min best e) (min beta e)
          (if e < best then some m else bm) none
          ((minimax c d ch alpha beta true (m :: st)).2.tail) pre1 pre2
        rw [fullMinGo_seed c d rest] at hrec
        set st1 := (minimax c d ch alpha beta true (m :: st)).2.tail with hst1
        set bm1 := (if e < best then some m else bm) with hbm1
        set r' := (minGo c d alpha rest (min best e) (min beta e) bm1 st1).1.1
          with hr'
        obtain ⟨h1', h2', h3'⟩ := hrec
        have hgrow : r' ≤ min best e := minGo_le_seed c d alpha rest _ _ _ _
        rcases le_or_lt beta e with hbe2 | helt2
        · have hfe : e ≤ f := hB hbe2
          have hbee : min beta e = beta := min_eq_left hbe2
          rw [hbee] at h2' h3'
          refine ⟨?_, ?_, ?_⟩
          · intro hra
            rcases min_le_iff.mp (h1' hra) with hcase | hcase
            · rcases min_le_iff.mp hcase with hc2 | hc2
              · exact le_trans
                  (le_trans (min_le_left _ M) (min_le_left best f)) hc2
              · exact absurd (le_trans hbe2 (le_trans hc2 hra))
                  (not_le.mpr hab)
            · exact le_trans (min_le_right _ M) hcase
          · intro hbr
            exact le_trans (h2' hbr)
              (min_le_min (min_le_min (le_refl best) hfe) (le_refl M))
          · intro har hrb
            have h3'' := h3' har hrb
            have hbeb : beta ≤ min best e := le_min hbb hbe2
            have hr_lt : r' < min best e := lt_of_lt_of_le hrb hbeb
            have hrM : r' = M := by
              rcases min_choice (min best e) M with hch | hch
              · rw [hch] at h3''
                exact absurd h3''.symm (ne_of_gt hr_lt)
              · rw [hch] at h3''
                exact h3''
            have hbfM : M ≤ min best f := by
              rw [← hrM]
              exact le_trans (le_of_lt hr_lt)
                (min_le_min (le_refl best) hfe)
            rw [hrM, min_eq_right hbfM]
        · have hef : e = f := hC haet helt2
          have hbee : min beta e = e := min_eq_right (le_of_lt helt2)
          rw [hbee] at h2' h3'
          refine ⟨?_, ?_, ?_⟩
          · intro hra
            have h8 := h1' hra
            rw [hef] at h8
            exact h8
          · intro hbr
            exact absurd
              (lt_of_le_of_lt (le_trans hgrow (min_le_right best e)) helt2)
              (not_lt.mpr hbr)
          · intro har hrb
            by_cases hre : e ≤ r'
            · have hr_eq : r' = e :=
                le_antisymm (le_trans hgrow (min_le_right best e)) hre
              have hG'ge := h2' hre
              have h5 : min best e ≤ r' := by
                rw [hr_eq]
                exact min_le_right best e
              have hG'le : min (min best e) M ≤ r' :=
                le_trans (min_le_left _ M) h5
              have h6 : r' = min (min best e) M := le_antisymm hG'ge hG'le
              rw [hef] at h6
              exact h6
            · have h7 := h3' har (not_le.mp hre)
              rw [hef] at h7
              exact h7

/-- The fail-soft alpha-beta invariant holds at every node, by induction
on the depth. -/
lemma minimax_ab (c : Bool) :
    ∀ (d : Nat) (t : GameTree) (maximizing_player : Bool)
      (alpha beta : ScoreE) (st : List Nat), alpha < beta →
      ABSpec ((minimax c d t alpha beta maximizing_player st).1.1)
        ((full_minimax c d t maximizing_player).1) alpha beta := by
  intro d
  induction d with
  | zero =>
      intro t maxim alpha beta st _
      rw [minimax, full_minimax]
      exact ABSpec_refl _ alpha beta
  | succ dd ih =>
      intro t maxim alpha beta st hab
      rw [minimax, full_minimax]
      by_cases hover : t.board.is_game_over = true
      · rw [if_pos hover, if_pos hover]
        exact ABSpec_refl _ alpha beta
      · rw [if_neg hover, if_neg hover]
        cases maxim
        · rw [if_neg (by simp), if_neg (by simp)]
          exact minGo_ab c dd alpha
            (fun ch beta' st' h => ih ch true alpha beta' st' h)
            t.moves ⊤ beta none none st le_top hab
        · rw [if_pos rfl, if_pos rfl]
          exact maxGo_ab c dd beta
            (fun ch alpha' st' h => ih ch false alpha' beta st' h)
            t.moves ⊥ alpha none none st bot_le hab

/-- C1: for every position, depth, player flag and starting board state,
alpha-beta search from the root window `(-inf, +inf)` returns exactly the
score of the unpruned full minimax traversal of the identical game tree
(the returned move may differ, but the score may not). -/
theorem C1_alphabeta_equivalence (c : Bool) (depth : Nat) (t : GameTree)
    (maximizing_player : Bool) (st : List Nat) :
    (minimax c depth t ⊥ ⊤ maximizing_player st).1.1 =
      (full_minimax c depth t maximizing_player).1 := by
  obtain ⟨h1, h2, h3⟩ :=
    minimax_ab c depth t maximizing_player ⊥ ⊤ st bot_lt_top
  by_cases hr1 : (minimax c depth t ⊥ ⊤ maximizing_player st).1.1 ≤ ⊥
  · have hrb := le_bot_iff.mp hr1
    have hF : (full_minimax c depth t maximizing_player).1 ≤ ⊥ :=
      hrb ▸ h1 hr1
    rw [hrb, le_bot_iff.mp hF]
  · by_cases hr2 :
        (⊤ : ScoreE) ≤ (minimax c depth t ⊥ ⊤ maximizing_player st).1.1
    · have hrt := top_le_iff.mp hr2
      have hF : (⊤ : ScoreE) ≤ (full_minimax c depth t maximizing_player).1 :=
        hrt ▸ h2 hr2
      rw [hrt, top_le_iff.mp hF]
    · exact h3 (not_le.mp hr1) (not_le.mp hr2)
